import Mathlib

set_option maxHeartbeats 1000000

/-!
Shallow embedding of the DocApp genetic-algorithm engine
(src/ga/fitness.py, src/ga/operators.py, src/ga/optimizer.py).

Modelling conventions:
* Python floats are modelled as exact rationals (ℚ).
* Python dicts are modelled as insertion-ordered association lists with
  unique keys; `dict.get` is first-match lookup.
* Python strings are modelled as `String`; `str.lower` is per-character
  `Char.toLower` over the character list, `in` is infix containment of
  the character lists.
* Calls into the `random` module are modelled by explicit draw arguments:
  an arbitrary natural number reduced into the required range for
  `random.randint` / `random.choice`, a `Bool` for an
  `random.random() < p` probability gate, and a list of naturals for the
  successive draws of `random.sample`.
-/

/-- Python `dict.get`: first-match association-list lookup. -/
def dictGet {α β : Type} [DecidableEq α] : List (α × β) → α → Option β
  | [], _ => none
  | (k, v) :: rest, key => if k = key then some v else dictGet rest key

/-- Remove the first entry carrying the given key (proof helper for
summing dictionary values). -/
def dictEraseKey {α β : Type} [DecidableEq α] : List (α × β) → α → List (α × β)
  | [], _ => []
  | (k, v) :: rest, key => if k = key then rest else (k, v) :: dictEraseKey rest key

/-- `random.randint(a, b)` (both bounds inclusive, `a ≤ b`): an arbitrary
draw reduced into the interval. -/
def randint (a b d : Nat) : Nat := a + d % (b + 1 - a)

/-- Python `str.lower` on the character list of a string. -/
def lowerChars (s : String) : List Char := s.data.map Char.toLower

/-- Python `pat in s` on strings: substring containment. -/
def charsContain (s : List Char) (pat : String) : Bool := decide (pat.data <:+: s)

/-- Staff row (src/database/models/staff.py); only the id is consumed by
the GA engine. -/
structure Staff where
  id : Int
deriving DecidableEq, Repr

/-- Hospital row (src/database/models/hospital.py); the fields consumed by
the GA engine. `annual_salary` is a nullable column. -/
structure Hospital where
  id : Int
  annual_salary : Option ℚ
  resident_capacity : Int
  specialist_capacity : Int
  instructor_capacity : Int
deriving DecidableEq, Repr

instance : Inhabited Hospital := ⟨⟨0, none, 0, 0, 0⟩⟩

/-- `Hospital.total_capacity` property: sum of the three capacity columns. -/
def Hospital.total_capacity (h : Hospital) : Int :=
  h.resident_capacity + h.specialist_capacity + h.instructor_capacity

/-- An evaluation-factor catalog entry as assembled by load_fitness_context. -/
structure Factor where
  id : Int
  name : String
deriving DecidableEq, Repr

/-- FitnessContext (src/ga/fitness.py lines 20-48). Dicts are association
lists: hospital_choices maps staff_id to a rank → hospital_id dict,
staff_weights maps staff_id to a factor_id → weight dict,
admin_evaluations maps staff_id to a factor_id → value dict, and
commute_cache maps (staff_id, hospital_id) to minutes. -/
structure FitnessContext where
  residents : List Staff
  hospitals : List Hospital
  hospital_id_to_idx : List (Int × Nat)
  resident_id_to_idx : List (Int × Nat)
  fiscal_year : Int
  hospital_choices : List (Int × List (Int × Int))
  staff_weights : List (Int × List (Int × ℚ))
  admin_evaluations : List (Int × List (Int × ℚ))
  commute_cache : List ((Int × Int) × ℚ)
  staff_factors : List Factor
  admin_factors : List Factor
  hospital_capacities : List (Int × Int)
  mismatch_bonus : ℚ := 1.5

/-- `context.hospitals[idx]`; candidates only ever carry in-range indices. -/
def hospitalAt (context : FitnessContext) (idx : Nat) : Hospital :=
  context.hospitals.getD idx default

/-- calculate_hope_score (src/ga/fitness.py lines 198-218): the first
choice entry naming this hospital yields 1.0 - (rank - 1) * 0.33,
otherwise 0. -/
def calculate_hope_score (staff_id hospital_id : Int) (context : FitnessContext) : ℚ :=
  let choices := (dictGet context.hospital_choices staff_id).getD []
  match choices.find? (fun p => p.2 == hospital_id) with
  | some p => 1 - ((p.1 : ℚ) - 1) * 0.33
  | none => 0

/-- The per-factor sub-score of calculate_preference_score
(src/ga/fitness.py lines 257-273), classified by substrings of the
lower-cased factor name. -/
def factorSubScore (staff_id : Int) (hospital : Hospital) (context : FitnessContext)
    (factor_name : String) : ℚ :=
  let nm := lowerChars factor_name
  if charsContain nm "年収" || charsContain nm "給与" || charsContain nm "salary" then
    let salary := hospital.annual_salary.getD 0
    if salary > 0 then min 1 (salary / 10000000) else 0.5
  else if charsContain nm "通勤" || charsContain nm "距離" || charsContain nm "commute" then
    let commute_time := (dictGet context.commute_cache (staff_id, hospital.id)).getD 60
    if commute_time > 0 then max 0 (1 - commute_time / 120) else 0.5
  else if charsContain nm "症例" || charsContain nm "外勤" then
    let capacity := hospital.total_capacity
    if capacity > 0 then min 1 ((capacity : ℚ) / 20) else 0.5
  else 0.5

/-- calculate_preference_score (src/ga/fitness.py lines 221-279).
Skipping a zero-weight factor (`continue`) is modelled by a zero term. -/
def calculate_preference_score (staff_id : Int) (hospital : Hospital)
    (context : FitnessContext) : ℚ :=
  let weights := (dictGet context.staff_weights staff_id).getD []
  if weights.isEmpty then 0.5
  else
    let total_weight := (weights.map (fun p => p.2)).sum
    if total_weight = 0 then 0.5
    else
      (context.staff_factors.map (fun factor =>
        let weight := (dictGet weights factor.id).getD 0
        if weight = 0 then 0
        else factorSubScore staff_id hospital context factor.name * (weight / total_weight))).sum

/-- calculate_admin_score (src/ga/fitness.py lines 282-300): mean of the
recorded evaluation values, 0.5 when none exist. -/
def calculate_admin_score (staff_id : Int) (context : FitnessContext) : ℚ :=
  let evaluations := (dictGet context.admin_evaluations staff_id).getD []
  if evaluations.isEmpty then 0.5
  else (evaluations.map (fun p => p.2)).sum / (evaluations.length : ℚ)

/-- The hospital ids a candidate assigns, gene by gene. -/
def assignedIds (individual : List Nat) (context : FitnessContext) : List Int :=
  individual.map (fun idx => (hospitalAt context idx).id)

/-- One entry of the hospital_assignment_count dict of calculate_fitness
(src/ga/fitness.py lines 156-160): residents assigned to this hospital id. -/
def assignedCount (individual : List Nat) (context : FitnessContext) (hospital_id : Int) : Nat :=
  ((assignedIds individual context).filter (fun h => h == hospital_id)).length

/-- context.hospital_capacities.get(hospital_id, 0). -/
def capacityOf (context : FitnessContext) (hospital_id : Int) : Int :=
  (dictGet context.hospital_capacities hospital_id).getD 0

/-- The capacity penalty of calculate_fitness (src/ga/fitness.py lines
182-188): 0.5 per resident over capacity, summed over the hospital ids
appearing in the candidate (iteration order of the count dict does not
affect the sum, so the distinct ids are taken via dedup). -/
def capacityPenalty (individual : List Nat) (context : FitnessContext) : ℚ :=
  ((assignedIds individual context).dedup.map (fun hid =>
    let count : ℚ := (assignedCount individual context hid : ℚ)
    let capacity : ℚ := (capacityOf context hid : ℚ)
    if count > capacity then (count - capacity) * 0.5 else 0)).sum

/-- Total excess over capacity of a candidate: the summed per-hospital
amount by which the assigned count exceeds the capacity. -/
def totalExcess (individual : List Nat) (context : FitnessContext) : ℚ :=
  ((assignedIds individual context).dedup.map (fun hid =>
    max 0 ((assignedCount individual context hid : ℚ) - (capacityOf context hid : ℚ)))).sum

/-- calculate_fitness (src/ga/fitness.py lines 131-195), returning the
single component of the DEAP fitness tuple. Candidates carry one gene per
resident, so gene i is read with getD. -/
def calculate_fitness (individual : List Nat) (context : FitnessContext) : ℚ :=
  let num_residents := context.residents.length
  if num_residents = 0 then 0
  else
    let total_score :=
      (context.residents.enum.map (fun p =>
        let hospital := hospitalAt context (individual.getD p.1 0)
        calculate_hope_score p.2.id hospital.id context * 0.4
          + calculate_preference_score p.2.id hospital context * 0.3
          + calculate_admin_score p.2.id context * 0.3)).sum
    max 0 ((total_score - capacityPenalty individual context) / (num_residents : ℚ))

/-- The candidate-shape invariant: one gene per resident, each gene a
valid hospital index. -/
def validCandidate (num_hospitals n : Nat) (c : List Nat) : Prop :=
  c.length = n ∧ ∀ g ∈ c, g < num_hospitals

instance (num_hospitals n : Nat) (c : List Nat) : Decidable (validCandidate num_hospitals n c) :=
  inferInstanceAs (Decidable (_ ∧ _))

/-- Candidate initialization (src/ga/optimizer.py lines 148-158): one
random.randint(0, num_hospitals - 1) draw per resident. -/
def initCandidate (num_hospitals n : Nat) (draws : Nat → Nat) : List Nat :=
  (List.range n).map (fun i => randint 0 (num_hospitals - 1) (draws i))

/-- crossover_two_point (src/ga/operators.py lines 12-36); the two draws
stand for random.randint(1, size - 1), and the Python swap of out-of-order
cut points is min/max. -/
def crossover_two_point (ind1 ind2 : List Nat) (d1 d2 : Nat) : List Nat × List Nat :=
  let size := ind1.length
  if size < 2 then (ind1, ind2)
  else
    let cxpoint1 := min (randint 1 (size - 1) d1) (randint 1 (size - 1) d2)
    let cxpoint2 := max (randint 1 (size - 1) d1) (randint 1 (size - 1) d2)
    (ind1.take cxpoint1 ++ (ind2.drop cxpoint1).take (cxpoint2 - cxpoint1) ++ ind1.drop cxpoint2,
     ind2.take cxpoint1 ++ (ind1.drop cxpoint1).take (cxpoint2 - cxpoint1) ++ ind2.drop cxpoint2)

/-- mutate_random (src/ga/operators.py lines 61-79): per position, flips i
is the random.random() < indpb test and draws i the randint draw. -/
def mutate_random (individual : List Nat) (num_hospitals : Nat)
    (flips : Nat → Bool) (draws : Nat → Nat) : List Nat :=
  individual.mapIdx (fun i g => if flips i then randint 0 (num_hospitals - 1) (draws i) else g)

/-- One entry of the hospital_count dict of mutate_capacity_aware
(src/ga/operators.py lines 127-130), keyed by hospital index. -/
def hospitalIdxCount (individual : List Nat) (idx : Nat) : Nat :=
  (individual.filter (fun g => g == idx)).length

/-- The overcapacity_hospitals list of mutate_capacity_aware
(src/ga/operators.py lines 132-143). -/
def overcapacityIdxs (individual : List Nat) (context : FitnessContext) : List Nat :=
  (context.hospitals.enum.filter (fun p =>
    (hospitalIdxCount individual p.1 : Int) > capacityOf context p.2.id)).map (fun p => p.1)

/-- The undercapacity_hospitals list of mutate_capacity_aware
(src/ga/operators.py lines 132-143). -/
def undercapacityIdxs (individual : List Nat) (context : FitnessContext) : List Nat :=
  (context.hospitals.enum.filter (fun p =>
    (hospitalIdxCount individual p.1 : Int) < capacityOf context p.2.id)).map (fun p => p.1)

/-- mutate_capacity_aware (src/ga/operators.py lines 106-172). gate is the
random.random() ≤ indpb test, d the random.choice draw. The loop breaks
after moving the first resident found at an overcapacity hospital, so the
count and list bookkeeping performed after that single move never reaches
the returned individual and is not part of the result. -/
def mutate_capacity_aware (individual : List Nat) (context : FitnessContext)
    (gate : Bool) (d : Nat) : List Nat :=
  if !gate then individual
  else
    let over := overcapacityIdxs individual context
    let under := undercapacityIdxs individual context
    if over.isEmpty || under.isEmpty then individual
    else
      match individual.findIdx? (fun g => over.contains g) with
      | none => individual
      | some i => individual.set i (under.getD (d % under.length) 0)

/-- The hope_hospital_idxs list of mutate_hope_aware
(src/ga/operators.py lines 208-213). -/
def hopeIdxsOf (context : FitnessContext) (choices : List (Int × Int)) : List Nat :=
  (choices.map (fun p => p.2)).filterMap (fun h_id => dictGet context.hospital_id_to_idx h_id)

/-- The resident loop of mutate_hope_aware (src/ga/operators.py lines
196-218): walk the enumerated residents, reassign the first one whose
current hospital is outside their nonempty choice dict (provided a choice
maps to a known hospital index) and stop. -/
def hopeAwareLoop (individual : List Nat) (context : FitnessContext) (d : Nat) :
    List (Nat × Staff) → List Nat
  | [] => individual
  | p :: rest =>
    let current_hospital_id := (hospitalAt context (individual.getD p.1 0)).id
    let choices := (dictGet context.hospital_choices p.2.id).getD []
    let is_in_hope := choices.any (fun c => c.2 == current_hospital_id)
    if !is_in_hope && !choices.isEmpty then
      let hope_hospital_idxs := hopeIdxsOf context choices
      if !hope_hospital_idxs.isEmpty then
        individual.set p.1 (hope_hospital_idxs.getD (d % hope_hospital_idxs.length) 0)
      else hopeAwareLoop individual context d rest
    else hopeAwareLoop individual context d rest

/-- mutate_hope_aware (src/ga/operators.py lines 175-220). gate is the
random.random() ≤ indpb test, d the random.choice draw. -/
def mutate_hope_aware (individual : List Nat) (context : FitnessContext)
    (gate : Bool) (d : Nat) : List Nat :=
  if !gate then individual
  else hopeAwareLoop individual context d context.residents.enum

/-- A DEAP individual as consumed by selection: genes plus the cached
fitness value (fitness.values[0]). -/
structure Individual where
  genes : List Nat
  fitness : ℚ
deriving DecidableEq, Repr

instance : Inhabited Individual := ⟨⟨[], 0⟩⟩

/-- Python max(iterable, key=fitness): left fold keeping the first
maximum. -/
def pyMaxFitness (l : List Individual) : Individual :=
  match l with
  | [] => default
  | a :: rest => rest.foldl (fun acc x => if x.fitness > acc.fitness then x else acc) a

/-- random.sample(pool, k) as implemented by CPython's selection-pool
algorithm for small pools: step i picks active position dᵢ % (n - i),
then moves the last active element into that slot. -/
def samplePool : List Individual → Nat → List Nat → List Individual
  | _, 0, _ => []
  | _, _ + 1, [] => []
  | pool, k + 1, d :: ds =>
    if pool.isEmpty then []
    else
      let n := pool.length
      let j := d % n
      pool.getD j default ::
        samplePool ((pool.set j (pool.getD (n - 1) default)).take (n - 1)) k ds

/-- select_tournament (src/ga/operators.py lines 223-242): k tournaments,
each over random.sample(population, min(tournsize, len(population))). -/
def select_tournament (population : List Individual) (k tournsize : Nat)
    (draws : Nat → List Nat) : List Individual :=
  (List.range k).map (fun t =>
    pyMaxFitness (samplePool population (min tournsize population.length) (draws t)))

/-- The tournament selection the spec describes, for comparison with
select_tournament: each of the tournsize aspirants is drawn independently
WITH replacement from the whole population (so one tournament's aspirants
may repeat a candidate), and the aspirant with highest cached fitness is
kept. -/
def select_tournament_spec (population : List Individual) (k tournsize : Nat)
    (draws : Nat → List Nat) : List Individual :=
  (List.range k).map (fun t =>
    pyMaxFitness ((List.range tournsize).map (fun i =>
      population.getD (((draws t).getD i 0) % population.length) default)))

/-- A progress callback invocation: Python exceptions are modelled by
Except, and an absent callback is skipped (the `if progress_callback`
guard). -/
def callbackAt (callback : Option (Nat → ℚ → Except String Unit)) (gen : Nat) (v : ℚ) :
    Except String Unit :=
  match callback with
  | some f => f gen v
  | none => Except.ok ()

/-- The generation loop of GAOptimizer.optimize restricted to its callback
interaction (src/ga/optimizer.py lines 238-273): every 10th generation the
callback is invoked bare — there is no try/except around it, so a raised
exception propagates. stats gives the per-generation recorded max
fitness. -/
def optimizeGenLoop (stats : Nat → ℚ) (callback : Option (Nat → ℚ → Except String Unit))
    (best : ℚ) : List Nat → Except String ℚ
  | [] => Except.ok best
  | gen :: rest =>
    if gen % 10 = 0 then
      match callbackAt callback gen (stats gen) with
      | Except.error e => Except.error e
      | Except.ok _ => optimizeGenLoop stats callback (stats gen) rest
    else optimizeGenLoop stats callback (stats gen) rest

/-- GAOptimizer.optimize restricted to its callback control flow
(src/ga/optimizer.py lines 234-273): the callback is invoked bare at
generation 0 (lines 234-235) and inside the loop (lines 272-273); an
Except.ok result stands for the returned OptimizationResult (its payload
the final best fitness). -/
def optimizeCallbackFlow (generations : Nat) (stats : Nat → ℚ)
    (callback : Option (Nat → ℚ → Except String Unit)) : Except String ℚ :=
  match callbackAt callback 0 (stats 0) with
  | Except.error e => Except.error e
  | Except.ok _ => optimizeGenLoop stats callback (stats 0) (List.range' 1 generations)

/-- Python int() on a float: truncation toward zero. -/
def pyTruncate (q : ℚ) : Int := if 0 ≤ q then ⌊q⌋ else ⌈q⌉

/-- The persisted commute_time of save_assignments (src/ga/optimizer.py
lines 366-389): `int(commute_time) if commute_time else None`, where both
a missing cache entry (None) and a cached 0 are falsy. -/
def storedCommuteTime (context : FitnessContext) (resident_id hospital_id : Int) : Option Int :=
  match dictGet context.commute_cache (resident_id, hospital_id) with
  | none => none
  | some t => if t ≠ 0 then some (pyTruncate t) else none

/-- One persisted assignment row as assembled by save_assignments
(src/ga/optimizer.py lines 364-390); fields not derived from the
assignment tuple (dates, fiscal year) are carried through unchanged. -/
structure AssignmentRecord where
  staff_id : Int
  hospital_id : Int
  fiscal_year : Int
  mismatch_flag : Bool
  hope_rank : Option Int
  fitness_score : ℚ
  commute_time : Option Int
deriving DecidableEq, Repr

/-- The assignment_data dict built for one result tuple inside
save_assignments (src/ga/optimizer.py lines 365-390). -/
def buildAssignmentRecord (context : FitnessContext) (fiscal_year : Int)
    (resident_id hospital_id hope_rank : Int) (fitness : ℚ) : AssignmentRecord :=
  { staff_id := resident_id
    hospital_id := hospital_id
    fiscal_year := fiscal_year
    mismatch_flag := hope_rank == 0
    hope_rank := if hope_rank > 0 then some hope_rank else none
    fitness_score := fitness
    commute_time := storedCommuteTime context resident_id hospital_id }

/-! ### Shared lemmas about the dictionary model -/

theorem dictGet_mem {α β : Type} [DecidableEq α] {l : List (α × β)} {k : α} {v : β}
    (h : dictGet l k = some v) : (k, v) ∈ l := by
  induction l with
  | nil => simp [dictGet] at h
  | cons e rest ih =>
    obtain ⟨a, b⟩ := e
    rw [dictGet] at h
    by_cases hk : a = k
    · rw [if_pos hk] at h
      obtain rfl := Option.some.inj h
      subst hk
      exact List.mem_cons_self _ _
    · rw [if_neg hk] at h
      exact List.mem_cons_of_mem _ (ih h)

theorem dictGet_eraseKey_ne {α β : Type} [DecidableEq α] (l : List (α × β)) (k k' : α)
    (h : k' ≠ k) : dictGet (dictEraseKey l k) k' = dictGet l k' := by
  induction l with
  | nil => rfl
  | cons e rest ih =>
    obtain ⟨a, b⟩ := e
    rw [dictEraseKey]
    by_cases hk : a = k
    · rw [if_pos hk, dictGet, if_neg (by rw [hk]; exact fun hh => h hh.symm)]
    · rw [if_neg hk, dictGet, dictGet]
      by_cases hk' : a = k'
      · rw [if_pos hk', if_pos hk']
      · rw [if_neg hk', if_neg hk', ih]

theorem dictEraseKey_sum {α : Type} [DecidableEq α] (l : List (α × ℚ)) (k : α) (v : ℚ)
    (h : dictGet l k = some v) :
    (l.map (fun p => p.2)).sum = v + ((dictEraseKey l k).map (fun p => p.2)).sum := by
  induction l with
  | nil => simp [dictGet] at h
  | cons e rest ih =>
    obtain ⟨a, b⟩ := e
    rw [dictGet] at h
    rw [dictEraseKey]
    by_cases hk : a = k
    · rw [if_pos hk] at h
      obtain rfl := Option.some.inj h
      rw [if_pos hk, List.map_cons, List.sum_cons]
    · rw [if_neg hk] at h
      rw [if_neg hk, List.map_cons, List.sum_cons, List.map_cons, List.sum_cons, ih h]
      ring

theorem dictEraseKey_sublist {α β : Type} [DecidableEq α] (l : List (α × β)) (k : α) :
    (dictEraseKey l k).Sublist l := by
  induction l with
  | nil => exact List.Sublist.refl _
  | cons e rest ih =>
    obtain ⟨a, b⟩ := e
    rw [dictEraseKey]
    by_cases hk : a = k
    · rw [if_pos hk]; exact List.sublist_cons_self _ _
    · rw [if_neg hk]; exact ih.cons₂ _

/-- Summing the looked-up values of distinct keys never exceeds the sum of
all stored values, when the stored values are nonnegative. -/
theorem sum_dictGetD_le {α : Type} [DecidableEq α] (ks : List α) (ws : List (α × ℚ))
    (hvals : ∀ p ∈ ws, 0 ≤ p.2) (hks : ks.Nodup) :
    (ks.map (fun k => (dictGet ws k).getD 0)).sum ≤ (ws.map (fun p => p.2)).sum := by
  induction ks generalizing ws with
  | nil =>
    simp only [List.map_nil, List.sum_nil]
    exact List.sum_nonneg (by
      intro x hx
      rw [List.mem_map] at hx
      obtain ⟨p, hp, rfl⟩ := hx
      exact hvals p hp)
  | cons k ks ih =>
    rw [List.map_cons, List.sum_cons]
    have hk_notin : k ∉ ks := (List.nodup_cons.mp hks).1
    cases hget : dictGet ws k with
    | none =>
      rw [Option.getD_none]
      have := ih ws hvals (List.Nodup.of_cons hks)
      linarith
    | some v =>
      rw [Option.getD_some]
      have hvals' : ∀ p ∈ dictEraseKey ws k, 0 ≤ p.2 :=
        fun p hp => hvals p ((dictEraseKey_sublist ws k).subset hp)
      have hmapeq : (ks.map (fun k' => (dictGet ws k').getD 0)).sum =
          (ks.map (fun k' => (dictGet (dictEraseKey ws k) k').getD 0)).sum := by
        congr 1
        apply List.map_congr_left
        intro k' hk'
        rw [dictGet_eraseKey_ne ws k k' (fun he => hk_notin (he ▸ hk'))]
      rw [dictEraseKey_sum ws k v hget, hmapeq]
      have := ih (dictEraseKey ws k) hvals' (List.Nodup.of_cons hks)
      linarith

theorem getD_mod_mem (l : List Nat) (d : Nat) (h : l ≠ []) : l.getD (d % l.length) 0 ∈ l := by
  have hlen : d % l.length < l.length := Nat.mod_lt _ (List.length_pos.mpr h)
  rw [List.getD_eq_getElem l 0 hlen]
  exact List.getElem_mem hlen

/-! ### C4, C6, C10, C8, C3 -/

/-- C4: noninterference of the mismatch bonus — two fitness contexts that
agree on every field except mismatch_bonus yield the same
calculate_fitness value for every candidate: the fitness computation
never consumes the configured mismatch bonus. -/
theorem C4_mismatch_bonus_noninterference (individual : List Nat)
    (context : FitnessContext) (b : ℚ) :
    calculate_fitness individual { context with mismatch_bonus := b } =
      calculate_fitness individual context := by
  cases context
  rfl

/-- C6 (code_bug record): optimize invokes the progress callback bare, so a
callback that raises at generation 0 aborts the whole run — the modelled
callback control flow of optimize propagates the error instead of
returning a result. -/
theorem C6_callback_exception_aborts :
    optimizeCallbackFlow 200 (fun _ => 0) (some (fun _ _ => Except.error "boom")) =
      Except.error "boom" := rfl

/-- C10: in the record save_assignments persists, commute_time is null
when the commute cache has no entry for (resident, assigned hospital) and
ALSO when the cached value is 0 minutes (Python truthiness); a positive
cached value is truncated to an integer. -/
theorem C10_zero_commute_persisted_null (context : FitnessContext)
    (fiscal_year resident_id hospital_id hope_rank : Int) (fitness : ℚ) :
    (dictGet context.commute_cache (resident_id, hospital_id) = none →
      (buildAssignmentRecord context fiscal_year resident_id hospital_id hope_rank
        fitness).commute_time = none) ∧
    (dictGet context.commute_cache (resident_id, hospital_id) = some 0 →
      (buildAssignmentRecord context fiscal_year resident_id hospital_id hope_rank
        fitness).commute_time = none) ∧
    (∀ t : ℚ, dictGet context.commute_cache (resident_id, hospital_id) = some t → 0 < t →
      (buildAssignmentRecord context fiscal_year resident_id hospital_id hope_rank
        fitness).commute_time = some ⌊t⌋) := by
  refine ⟨?_, ?_, ?_⟩
  · intro h
    simp only [buildAssignmentRecord, storedCommuteTime, h]
  · intro h
    simp only [buildAssignmentRecord, storedCommuteTime, h]
    simp
  · intro t ht hpos
    simp only [buildAssignmentRecord, storedCommuteTime, ht]
    rw [if_pos (ne_of_gt hpos), pyTruncate, if_pos (le_of_lt hpos)]

/-- C8: when no hospital's assigned count exceeds its capacity,
mutate_capacity_aware returns the candidate unchanged for every
probability-gate outcome and every random draw. -/
theorem C8_capacity_mutation_noop (individual : List Nat) (context : FitnessContext)
    (h : ∀ p ∈ context.hospitals.enum,
      (hospitalIdxCount individual p.1 : Int) ≤ capacityOf context p.2.id) :
    ∀ gate d, mutate_capacity_aware individual context gate d = individual := by
  intro gate d
  unfold mutate_capacity_aware
  cases gate with
  | false => rfl
  | true =>
    have hover : overcapacityIdxs individual context = [] := by
      unfold overcapacityIdxs
      rw [List.filter_eq_nil_iff.mpr, List.map_nil]
      intro p hp
      simp only [decide_eq_true_eq, not_lt]
      exact h p hp
    rw [hover]
    simp

def hospC3 : Hospital := ⟨10, none, 0, 0, 0⟩

def ctxC3 : FitnessContext :=
  { residents := [⟨1⟩]
    hospitals := [hospC3]
    hospital_id_to_idx := [(10, 0)]
    resident_id_to_idx := [(1, 0)]
    fiscal_year := 2025
    hospital_choices := []
    staff_weights := [(1, [(1, 1)])]
    admin_evaluations := []
    commute_cache := [((1, 10), 0)]
    staff_factors := [⟨1, "commute"⟩]
    admin_factors := []
    hospital_capacities := [(10, 1)]
    mismatch_bonus := 1 }

/-- C3 (counterexample): for the commute-named factor and a cached commute
time of 0 minutes, the factor sub-score is 0.5, not
max(0, 1 − minutes/120) = 1 as the claim states. -/
theorem C3_counterexample :
    factorSubScore 1 hospC3 ctxC3 "commute" ≠
      max 0 (1 - ((dictGet ctxC3.commute_cache (1, hospC3.id)).getD 60) / 120) := by
  have h1 : charsContain (lowerChars "commute") "年収" = false := by decide
  have h2 : charsContain (lowerChars "commute") "給与" = false := by decide
  have h3 : charsContain (lowerChars "commute") "salary" = false := by decide
  have h4 : charsContain (lowerChars "commute") "通勤" = false := by decide
  have h5 : charsContain (lowerChars "commute") "距離" = false := by decide
  have h6 : charsContain (lowerChars "commute") "commute" = true := by decide
  have hd : dictGet ctxC3.commute_cache (1, hospC3.id) = some 0 := by decide
  rw [factorSubScore]
  simp only [h1, h2, h3, h4, h5, h6, Bool.or_self, Bool.or_false, Bool.false_or,
    Bool.or_true, if_false, if_true, hd, Option.getD_some]
  norm_num

/-- C3 (amended): for a factor whose lower-cased name hits the commute
branch (contains 通勤, 距離 or commute, and none of the salary markers),
the sub-score is max(0, 1 − minutes/120) when the looked-up minutes
(default 60 for a missing entry) are positive, and 0.5 otherwise — in
particular a cached commute time of 0 scores 0.5, not 1. -/
theorem C3_commute_subscore (context : FitnessContext) (staff_id : Int)
    (hospital : Hospital) (factor_name : String)
    (hsal : charsContain (lowerChars factor_name) "年収" = false ∧
      charsContain (lowerChars factor_name) "給与" = false ∧
      charsContain (lowerChars factor_name) "salary" = false)
    (hcom : charsContain (lowerChars factor_name) "通勤" = true ∨
      charsContain (lowerChars factor_name) "距離" = true ∨
      charsContain (lowerChars factor_name) "commute" = true) :
    factorSubScore staff_id hospital context factor_name =
      (if ((dictGet context.commute_cache (staff_id, hospital.id)).getD 60) > 0 then
        max 0 (1 - ((dictGet context.commute_cache (staff_id, hospital.id)).getD 60) / 120)
      else 0.5) := by
  obtain ⟨h1, h2, h3⟩ := hsal
  rw [factorSubScore]
  rcases hcom with h | h | h <;> simp [h1, h2, h3, h]

/-- C3 witness: the amended statement at the concrete zero-commute
context. -/
theorem C3_commute_subscore_witness :
    factorSubScore 1 hospC3 ctxC3 "commute" =
      (if ((dictGet ctxC3.commute_cache (1, hospC3.id)).getD 60) > 0 then
        max 0 (1 - ((dictGet ctxC3.commute_cache (1, hospC3.id)).getD 60) / 120)
      else 0.5) :=
  C3_commute_subscore ctxC3 1 hospC3 "commute" ⟨by decide, by decide, by decide⟩
    (Or.inr (Or.inr (by decide)))

/-! ### C7: two-point crossover -/

theorem randint_bounds (a b d : Nat) (h : a ≤ b) :
    a ≤ randint a b d ∧ randint a b d ≤ b := by
  unfold randint
  have hm : d % (b + 1 - a) < b + 1 - a := Nat.mod_lt _ (by omega)
  omega

theorem splice_length (l1 l2 : List Nat) (c1 c2 : Nat) (hlen : l2.length = l1.length)
    (hc1 : c1 ≤ c2) (hc2 : c2 ≤ l1.length) :
    (l1.take c1 ++ (l2.drop c1).take (c2 - c1) ++ l1.drop c2).length = l1.length := by
  simp only [List.length_append, List.length_take, List.length_drop]
  omega

theorem splice_getElem? (l1 l2 : List Nat) (c1 c2 i : Nat) (hlen : l2.length = l1.length)
    (hc0 : c1 ≤ c2) (hc2 : c2 ≤ l1.length) :
    (l1.take c1 ++ (l2.drop c1).take (c2 - c1) ++ l1.drop c2)[i]? =
      if i < c1 then l1[i]? else if i < c2 then l2[i]? else l1[i]? := by
  have hA : (l1.take c1).length = c1 := by rw [List.length_take]; omega
  have hB : ((l2.drop c1).take (c2 - c1)).length = c2 - c1 := by
    rw [List.length_take, List.length_drop]; omega
  rw [List.getElem?_append, List.getElem?_append, List.length_append, hA, hB]
  split_ifs <;>
    first
    | omega
    | (rw [List.getElem?_take, if_pos (by omega), List.getElem?_drop]; congr 1; omega)
    | (rw [List.getElem?_take, if_pos (by omega)])
    | (rw [List.getElem?_drop]; congr 1; omega)

/-- C7: for parents of equal length, two-point crossover returns children
of that same length whose gene at every position comes from one of the two
parents at that position; for length < 2 the parents are returned
unchanged. -/
theorem C7_crossover_two_point (ind1 ind2 : List Nat) (d1 d2 : Nat)
    (hlen : ind2.length = ind1.length) :
    ((crossover_two_point ind1 ind2 d1 d2).1.length = ind1.length ∧
     (crossover_two_point ind1 ind2 d1 d2).2.length = ind1.length) ∧
    (∀ i, ((crossover_two_point ind1 ind2 d1 d2).1.getD i 0 = ind1.getD i 0 ∨
           (crossover_two_point ind1 ind2 d1 d2).1.getD i 0 = ind2.getD i 0) ∧
          ((crossover_two_point ind1 ind2 d1 d2).2.getD i 0 = ind1.getD i 0 ∨
           (crossover_two_point ind1 ind2 d1 d2).2.getD i 0 = ind2.getD i 0)) ∧
    (ind1.length < 2 → crossover_two_point ind1 ind2 d1 d2 = (ind1, ind2)) := by
  by_cases hsize : ind1.length < 2
  · rw [crossover_two_point, if_pos hsize]
    exact ⟨⟨rfl, hlen⟩, fun i => ⟨Or.inl rfl, Or.inr rfl⟩, fun _ => rfl⟩
  · have hs2 : 2 ≤ ind1.length := not_lt.mp hsize
    have hr1 := randint_bounds 1 (ind1.length - 1) d1 (by omega)
    have hr2 := randint_bounds 1 (ind1.length - 1) d2 (by omega)
    set p1 := randint 1 (ind1.length - 1) d1 with hp1
    set p2 := randint 1 (ind1.length - 1) d2 with hp2
    have hc0 : min p1 p2 ≤ max p1 p2 := min_le_max
    have hc2 : max p1 p2 ≤ ind1.length := by omega
    rw [crossover_two_point, if_neg hsize]
    refine ⟨⟨splice_length ind1 ind2 _ _ hlen hc0 hc2,
        ?_⟩, fun i => ⟨?_, ?_⟩, fun h => absurd h hsize⟩
    · rw [splice_length ind2 ind1 _ _ (hlen ▸ rfl) hc0 (by omega), hlen]
    · rw [List.getD_eq_getElem?_getD, List.getD_eq_getElem?_getD,
        List.getD_eq_getElem?_getD,
        splice_getElem? ind1 ind2 _ _ i hlen hc0 hc2]
      by_cases h1 : i < min p1 p2
      · rw [if_pos h1]; exact Or.inl rfl
      · rw [if_neg h1]
        by_cases h2 : i < max p1 p2
        · rw [if_pos h2]; exact Or.inr rfl
        · rw [if_neg h2]; exact Or.inl rfl
    · rw [List.getD_eq_getElem?_getD, List.getD_eq_getElem?_getD,
        List.getD_eq_getElem?_getD,
        splice_getElem? ind2 ind1 _ _ i (hlen ▸ rfl) hc0 (by omega)]
      by_cases h1 : i < min p1 p2
      · rw [if_pos h1]; exact Or.inr rfl
      · rw [if_neg h1]
        by_cases h2 : i < max p1 p2
        · rw [if_pos h2]; exact Or.inl rfl
        · rw [if_neg h2]; exact Or.inr rfl

/-- C7 witness: the crossover shape statement at concrete parents. -/
theorem C7_crossover_two_point_witness :
    (crossover_two_point [1, 2, 3] [4, 5, 6] 0 1).1.length = [1, 2, 3].length :=
  (C7_crossover_two_point [1, 2, 3] [4, 5, 6] 0 1 rfl).1.1

/-! ### C2: the capacity penalty -/

theorem capacityPenalty_eq_half_totalExcess (individual : List Nat)
    (context : FitnessContext) :
    capacityPenalty individual context = 0.5 * totalExcess individual context := by
  simp only [capacityPenalty, totalExcess]
  rw [← List.sum_map_mul_left]
  congr 1
  apply List.map_congr_left
  intro hid _
  by_cases hc : ((assignedCount individual context hid : ℚ)) > (capacityOf context hid : ℚ)
  · rw [if_pos hc, max_eq_right (by linarith), mul_comm]
  · rw [if_neg hc, max_eq_left (by linarith), mul_zero]

theorem hospitalAt_mem (context : FitnessContext) (g : Nat)
    (h : g < context.hospitals.length) : hospitalAt context g ∈ context.hospitals := by
  rw [hospitalAt, List.getD_eq_getElem _ _ h]
  exact List.getElem_mem h

theorem assignedCount_pos_mem (individual : List Nat) (context : FitnessContext) (hid : Int)
    (h : 0 < assignedCount individual context hid) : hid ∈ assignedIds individual context := by
  rw [assignedCount] at h
  obtain ⟨x, hx⟩ := List.exists_mem_of_ne_nil _ (List.length_pos.mp h)
  rw [List.mem_filter] at hx
  obtain rfl := beq_iff_eq.mp hx.2
  exact hx.1

theorem capacityPenalty_term_nonneg (individual : List Nat) (context : FitnessContext)
    (hid : Int) :
    (0 : ℚ) ≤ (if ((assignedCount individual context hid : ℚ)) > (capacityOf context hid : ℚ)
      then ((assignedCount individual context hid : ℚ) - (capacityOf context hid : ℚ)) * 0.5
      else 0) := by
  split_ifs with h
  · nlinarith
  · exact le_refl 0

/-- C2: the capacity penalty in calculate_fitness equals 0.5 times the
summed per-hospital excess over capacity; it is 0 exactly when no
hospital's assigned count exceeds its capacity, strictly positive when
some excess exists, and strictly monotone in the total excess. -/
theorem C2_capacity_penalty (individual : List Nat) (context : FitnessContext)
    (hvalid : ∀ g ∈ individual, g < context.hospitals.length)
    (hcap : ∀ h ∈ context.hospitals, 0 ≤ capacityOf context h.id) :
    capacityPenalty individual context = 0.5 * totalExcess individual context ∧
    (capacityPenalty individual context = 0 ↔
      ∀ h ∈ context.hospitals,
        (assignedCount individual context h.id : Int) ≤ capacityOf context h.id) ∧
    (0 < totalExcess individual context → 0 < capacityPenalty individual context) ∧
    (∀ ind1 ind2 : List Nat, totalExcess ind1 context < totalExcess ind2 context →
      capacityPenalty ind1 context < capacityPenalty ind2 context) := by
  refine ⟨capacityPenalty_eq_half_totalExcess individual context, ⟨?_, ?_⟩, ?_, ?_⟩
  · intro h0 h hh
    by_contra hbig
    push_neg at hbig
    have hcnt1 : 0 < assignedCount individual context h.id := by
      have := hcap h hh
      omega
    have hmem : h.id ∈ (assignedIds individual context).dedup :=
      List.mem_dedup.mpr (assignedCount_pos_mem individual context h.id hcnt1)
    have hterm_pos :
        (0 : ℚ) < ((assignedCount individual context h.id : ℚ) -
          (capacityOf context h.id : ℚ)) * 0.5 := by
      have : (capacityOf context h.id : ℚ) < (assignedCount individual context h.id : ℚ) := by
        exact_mod_cast hbig
      nlinarith
    have hterm_le : (if ((assignedCount individual context h.id : ℚ)) >
          (capacityOf context h.id : ℚ)
        then ((assignedCount individual context h.id : ℚ) -
          (capacityOf context h.id : ℚ)) * 0.5
        else 0) ≤ capacityPenalty individual context := by
      rw [capacityPenalty]
      refine List.single_le_sum ?_ _ (List.mem_map_of_mem _ hmem)
      intro x hx
      rw [List.mem_map] at hx
      obtain ⟨hid, _, rfl⟩ := hx
      exact capacityPenalty_term_nonneg individual context hid
    rw [h0] at hterm_le
    rw [if_pos (by exact_mod_cast hbig)] at hterm_le
    linarith
  · intro hall
    rw [capacityPenalty]
    apply List.sum_eq_zero
    intro x hx
    rw [List.mem_map] at hx
    obtain ⟨hid, hhid, rfl⟩ := hx
    have hmem : hid ∈ assignedIds individual context := List.mem_dedup.mp hhid
    rw [assignedIds, List.mem_map] at hmem
    obtain ⟨g, hg, rfl⟩ := hmem
    have hh : hospitalAt context g ∈ context.hospitals :=
      hospitalAt_mem context g (hvalid g hg)
    have := hall _ hh
    rw [if_neg (by push_neg; exact_mod_cast this)]
  · intro hpos
    rw [capacityPenalty_eq_half_totalExcess]
    linarith
  · intro ind1 ind2 hlt
    rw [capacityPenalty_eq_half_totalExcess, capacityPenalty_eq_half_totalExcess]
    linarith

/-! ### C1: the candidate-shape invariant -/

theorem randint_zero_lt (num_hospitals d : Nat) (h : 1 ≤ num_hospitals) :
    randint 0 (num_hospitals - 1) d < num_hospitals := by
  unfold randint
  have := Nat.mod_lt d (y := num_hospitals - 1 + 1 - 0) (by omega)
  omega

theorem splice_mem (l1 l2 : List Nat) (c1 c2 x : Nat)
    (hx : x ∈ l1.take c1 ++ (l2.drop c1).take (c2 - c1) ++ l1.drop c2) :
    x ∈ l1 ∨ x ∈ l2 := by
  rcases List.mem_append.mp hx with h | h
  · rcases List.mem_append.mp h with h2 | h2
    · exact Or.inl (List.take_subset _ _ h2)
    · exact Or.inr (List.drop_subset _ _ (List.take_subset _ _ h2))
  · exact Or.inl (List.drop_subset _ _ h)

theorem undercapacityIdxs_lt (individual : List Nat) (context : FitnessContext) :
    ∀ x ∈ undercapacityIdxs individual context, x < context.hospitals.length := by
  intro x hx
  rw [undercapacityIdxs, List.mem_map] at hx
  obtain ⟨p, hp, rfl⟩ := hx
  rw [List.mem_filter] at hp
  exact (List.mem_enum hp.1).1

theorem mutate_capacity_aware_shape (individual : List Nat) (context : FitnessContext)
    (gate : Bool) (d : Nat) :
    mutate_capacity_aware individual context gate d = individual ∨
    ∃ i x, x ∈ undercapacityIdxs individual context ∧
      mutate_capacity_aware individual context gate d = individual.set i x := by
  cases gate with
  | false => left; rfl
  | true =>
    rw [mutate_capacity_aware]
    simp only [Bool.not_true, Bool.false_eq_true, if_false]
    split_ifs with hempty
    · left; rfl
    · have hunder : undercapacityIdxs individual context ≠ [] := by
        intro hnil
        apply hempty
        rw [hnil]
        simp
      cases hfind : individual.findIdx?
          (fun g => (overcapacityIdxs individual context).contains g) with
      | none => left; simp [hfind]
      | some i =>
        right
        exact ⟨i, _, getD_mod_mem _ d hunder, by simp [hfind]⟩

theorem hopeAwareLoop_shape (individual : List Nat) (context : FitnessContext) (d : Nat) :
    ∀ l, hopeAwareLoop individual context d l = individual ∨
      ∃ i x hid, dictGet context.hospital_id_to_idx hid = some x ∧
        hopeAwareLoop individual context d l = individual.set i x := by
  intro l
  induction l with
  | nil => left; rfl
  | cons p rest ih =>
    rw [hopeAwareLoop]
    simp only []
    split_ifs with h1 h2
    · right
      have hne : hopeIdxsOf context ((dictGet context.hospital_choices p.2.id).getD []) ≠ [] := by
        intro hnil
        rw [hnil] at h2
        simp at h2
      have hx := getD_mod_mem _ d hne
      rw [hopeIdxsOf, List.mem_filterMap] at hx
      obtain ⟨hid, _, hdict⟩ := hx
      exact ⟨p.1, _, hid, hdict, rfl⟩
    · exact ih
    · exact ih

theorem mutate_hope_aware_shape (individual : List Nat) (context : FitnessContext)
    (gate : Bool) (d : Nat) :
    mutate_hope_aware individual context gate d = individual ∨
    ∃ i x hid, dictGet context.hospital_id_to_idx hid = some x ∧
      mutate_hope_aware individual context gate d = individual.set i x := by
  cases gate with
  | false => left; rfl
  | true =>
    rw [mutate_hope_aware]
    simp only [Bool.not_true, Bool.false_eq_true, if_false]
    exact hopeAwareLoop_shape individual context d context.residents.enum

theorem set_valid (num_hospitals n : Nat) (individual : List Nat) (i x : Nat)
    (hv : validCandidate num_hospitals n individual) (hx : x < num_hospitals) :
    validCandidate num_hospitals n (individual.set i x) := by
  refine ⟨by rw [List.length_set]; exact hv.1, fun g hg => ?_⟩
  rcases List.mem_or_eq_of_mem_set hg with h | h
  · exact hv.2 g h
  · exact h ▸ hx

/-- C1: initialization produces, and two-point crossover, random mutation,
capacity-aware mutation and hope-aware mutation preserve, candidates with
one gene per resident and every gene a valid hospital index — for every
probability-gate outcome and every random draw, given at least one
hospital (and the context's hospital_id_to_idx mapping into range, as
load_fitness_context builds it). -/
theorem C1_candidate_shape_invariant (context : FitnessContext) (n : Nat)
    (hH : 1 ≤ context.hospitals.length)
    (hidx : ∀ p ∈ context.hospital_id_to_idx, p.2 < context.hospitals.length) :
    (∀ draws, validCandidate context.hospitals.length n
        (initCandidate context.hospitals.length n draws)) ∧
    (∀ ind1 ind2 d1 d2,
        validCandidate context.hospitals.length n ind1 →
        validCandidate context.hospitals.length n ind2 →
        validCandidate context.hospitals.length n (crossover_two_point ind1 ind2 d1 d2).1 ∧
        validCandidate context.hospitals.length n (crossover_two_point ind1 ind2 d1 d2).2) ∧
    (∀ individual flips draws,
        validCandidate context.hospitals.length n individual →
        validCandidate context.hospitals.length n
          (mutate_random individual context.hospitals.length flips draws)) ∧
    (∀ individual gate d,
        validCandidate context.hospitals.length n individual →
        validCandidate context.hospitals.length n
          (mutate_capacity_aware individual context gate d)) ∧
    (∀ individual gate d,
        validCandidate context.hospitals.length n individual →
        validCandidate context.hospitals.length n (mutate_hope_aware individual context gate d)) := by
  refine ⟨?_, ?_, ?_, ?_, ?_⟩
  · intro draws
    refine ⟨by simp [initCandidate], fun g hg => ?_⟩
    rw [initCandidate, List.mem_map] at hg
    obtain ⟨i, _, rfl⟩ := hg
    exact randint_zero_lt _ _ hH
  · intro ind1 ind2 d1 d2 hv1 hv2
    have hlen : ind2.length = ind1.length := by rw [hv1.1, hv2.1]
    by_cases hs : ind1.length < 2
    · rw [crossover_two_point, if_pos hs]
      exact ⟨hv1, hv2⟩
    · have hs2 : 2 ≤ ind1.length := not_lt.mp hs
      have hr1 := randint_bounds 1 (ind1.length - 1) d1 (by omega)
      have hr2 := randint_bounds 1 (ind1.length - 1) d2 (by omega)
      rw [crossover_two_point, if_neg hs]
      constructor
      · refine ⟨?_, fun g hg => ?_⟩
        · rw [splice_length ind1 ind2 _ _ hlen min_le_max (by omega)]
          exact hv1.1
        · rcases splice_mem ind1 ind2 _ _ g hg with h | h
          · exact hv1.2 g h
          · exact hv2.2 g h
      · refine ⟨?_, fun g hg => ?_⟩
        · rw [splice_length ind2 ind1 _ _ (hlen ▸ rfl) min_le_max (by omega), hlen]
          exact hv1.1
        · rcases splice_mem ind2 ind1 _ _ g hg with h | h
          · exact hv2.2 g h
          · exact hv1.2 g h
  · intro individual flips draws hv
    refine ⟨by rw [mutate_random, List.length_mapIdx]; exact hv.1, fun g hg => ?_⟩
    rw [mutate_random, List.mem_mapIdx] at hg
    obtain ⟨i, hi, heq⟩ := hg
    by_cases hf : flips i
    · rw [if_pos hf] at heq
      exact heq ▸ randint_zero_lt _ _ hH
    · rw [if_neg hf] at heq
      exact heq ▸ hv.2 _ (List.getElem_mem hi)
  · intro individual gate d hv
    rcases mutate_capacity_aware_shape individual context gate d with h | ⟨i, x, hx, h⟩
    · rw [h]; exact hv
    · rw [h]
      exact set_valid _ n individual i x hv (undercapacityIdxs_lt individual context x hx)
  · intro individual gate d hv
    rcases mutate_hope_aware_shape individual context gate d with h | ⟨i, x, hid, hdict, h⟩
    · rw [h]; exact hv
    · rw [h]
      exact set_valid _ n individual i x hv (hidx _ (dictGet_mem hdict))

/-- C1 witness: the invariant for a freshly initialized candidate over the
concrete one-hospital context. -/
theorem C1_candidate_shape_invariant_witness :
    validCandidate ctxC3.hospitals.length 2 (initCandidate ctxC3.hospitals.length 2 (fun _ => 5)) :=
  (C1_candidate_shape_invariant ctxC3 2 (by decide) (by decide)).1 (fun _ => 5)

/-! ### C9: fitness stays in the unit interval -/

/-- Every stored hospital-choice rank is a declared 1st/2nd/3rd choice. -/
def allChoiceRanksValid (context : FitnessContext) : Prop :=
  ∀ e ∈ context.hospital_choices, ∀ p ∈ e.2, p.1 = 1 ∨ p.1 = 2 ∨ p.1 = 3

/-- Every stored staff factor weight is nonnegative. -/
def allWeightsNonneg (context : FitnessContext) : Prop :=
  ∀ e ∈ context.staff_weights, ∀ p ∈ e.2, (0 : ℚ) ≤ p.2

/-- Every stored admin-evaluation value lies in the unit interval. -/
def allAdminValuesUnit (context : FitnessContext) : Prop :=
  ∀ e ∈ context.admin_evaluations, ∀ p ∈ e.2, (0 : ℚ) ≤ p.2 ∧ p.2 ≤ 1

/-- The staff-factor catalog carries distinct factor ids (database primary
keys). -/
def staffFactorIdsNodup (context : FitnessContext) : Prop :=
  (context.staff_factors.map (fun f => f.id)).Nodup

theorem hope_score_bounds (staff_id hospital_id : Int) (context : FitnessContext)
    (hranks : allChoiceRanksValid context) :
    0 ≤ calculate_hope_score staff_id hospital_id context ∧
      calculate_hope_score staff_id hospital_id context ≤ 1 := by
  rw [calculate_hope_score]
  cases hget : dictGet context.hospital_choices staff_id with
  | none => simp [hget]
  | some cs =>
    simp only [hget, Option.getD_some]
    cases hfind : cs.find? (fun p => p.2 == hospital_id) with
    | none => simp [hfind]
    | some p =>
      simp only [hfind]
      have hp := List.mem_of_find?_eq_some hfind
      rcases hranks _ (dictGet_mem hget) p hp with h | h | h <;> rw [h] <;> norm_num

theorem factorSubScore_bounds (staff_id : Int) (hospital : Hospital)
    (context : FitnessContext) (factor_name : String) :
    0 ≤ factorSubScore staff_id hospital context factor_name ∧
      factorSubScore staff_id hospital context factor_name ≤ 1 := by
  rw [factorSubScore]
  simp only []
  by_cases h1 : (charsContain (lowerChars factor_name) "年収" ||
      charsContain (lowerChars factor_name) "給与" ||
      charsContain (lowerChars factor_name) "salary") = true
  · rw [if_pos h1]
    by_cases h2 : hospital.annual_salary.getD 0 > 0
    · rw [if_pos h2]
      exact ⟨le_min (by norm_num) (div_nonneg h2.le (by norm_num)), min_le_left _ _⟩
    · rw [if_neg h2]; norm_num
  · rw [if_neg h1]
    by_cases h3 : (charsContain (lowerChars factor_name) "通勤" ||
        charsContain (lowerChars factor_name) "距離" ||
        charsContain (lowerChars factor_name) "commute") = true
    · rw [if_pos h3]
      by_cases h4 : ((dictGet context.commute_cache (staff_id, hospital.id)).getD 60) > 0
      · rw [if_pos h4]
        refine ⟨le_max_left _ _, max_le (by norm_num) ?_⟩
        have := div_nonneg h4.le (show (0:ℚ) ≤ 120 by norm_num)
        linarith
      · rw [if_neg h4]; norm_num
    · rw [if_neg h3]
      by_cases h5 : (charsContain (lowerChars factor_name) "症例" ||
          charsContain (lowerChars factor_name) "外勤") = true
      · rw [if_pos h5]
        by_cases h6 : hospital.total_capacity > 0
        · rw [if_pos h6]
          have hc : (0:ℚ) ≤ (hospital.total_capacity : ℚ) := by exact_mod_cast h6.le
          exact ⟨le_min (by norm_num) (div_nonneg hc (by norm_num)), min_le_left _ _⟩
        · rw [if_neg h6]; norm_num
      · rw [if_neg h5]; norm_num

theorem admin_score_bounds (staff_id : Int) (context : FitnessContext)
    (hadmin : allAdminValuesUnit context) :
    0 ≤ calculate_admin_score staff_id context ∧
      calculate_admin_score staff_id context ≤ 1 := by
  rw [calculate_admin_score]
  cases hget : dictGet context.admin_evaluations staff_id with
  | none => norm_num
  | some evs =>
    simp only [hget, Option.getD_some]
    by_cases hemp : evs.isEmpty = true
    · rw [if_pos hemp]; norm_num
    · rw [if_neg hemp]
      have hne : evs ≠ [] := fun h => hemp (by simp [h])
      have hvals : ∀ p ∈ evs, 0 ≤ p.2 ∧ p.2 ≤ 1 := hadmin _ (dictGet_mem hget)
      have hlen : (0:ℚ) < (evs.length : ℚ) := by
        exact_mod_cast List.length_pos.mpr hne
      constructor
      · refine div_nonneg (List.sum_nonneg ?_) hlen.le
        intro x hx
        rw [List.mem_map] at hx
        obtain ⟨p, hp, rfl⟩ := hx
        exact (hvals p hp).1
      · rw [div_le_one hlen]
        have hb := List.sum_le_card_nsmul (evs.map (fun p => p.2)) 1 ?_
        · simpa using hb
        · intro x hx
          rw [List.mem_map] at hx
          obtain ⟨p, hp, rfl⟩ := hx
          exact (hvals p hp).2

theorem preference_score_bounds (staff_id : Int) (hospital : Hospital)
    (context : FitnessContext) (hw : allWeightsNonneg context)
    (hfac : staffFactorIdsNodup context) :
    0 ≤ calculate_preference_score staff_id hospital context ∧
      calculate_preference_score staff_id hospital context ≤ 1 := by
  rw [calculate_preference_score]
  cases hget : dictGet context.staff_weights staff_id with
  | none => norm_num
  | some ws =>
    simp only [hget, Option.getD_some]
    by_cases hemp : ws.isEmpty = true
    · rw [if_pos hemp]; norm_num
    · rw [if_neg hemp]
      by_cases hzero : (ws.map (fun p => p.2)).sum = 0
      · rw [if_pos hzero]; norm_num
      · rw [if_neg hzero]
        have hvals : ∀ p ∈ ws, 0 ≤ p.2 := hw _ (dictGet_mem hget)
        have hWnn : 0 ≤ (ws.map (fun p => p.2)).sum := by
          refine List.sum_nonneg ?_
          intro x hx
          rw [List.mem_map] at hx
          obtain ⟨p, hp, rfl⟩ := hx
          exact hvals p hp
        have hWpos : 0 < (ws.map (fun p => p.2)).sum := lt_of_le_of_ne hWnn (Ne.symm hzero)
        have hwnn : ∀ k : Int, 0 ≤ (dictGet ws k).getD 0 := by
          intro k
          cases hk : dictGet ws k with
          | none => simp
          | some v => simpa using hvals _ (dictGet_mem hk)
        constructor
        · refine List.sum_nonneg ?_
          intro x hx
          rw [List.mem_map] at hx
          obtain ⟨f, hf, rfl⟩ := hx
          by_cases hwz : (dictGet ws f.id).getD 0 = 0
          · rw [if_pos hwz]
          · rw [if_neg hwz]
            exact mul_nonneg (factorSubScore_bounds staff_id hospital context f.name).1
              (div_nonneg (hwnn f.id) hWpos.le)
        · have hle : (context.staff_factors.map (fun factor =>
              let weight := (dictGet ws factor.id).getD 0
              if weight = 0 then 0
              else factorSubScore staff_id hospital context factor.name *
                (weight / (ws.map (fun p => p.2)).sum))).sum ≤
              (context.staff_factors.map (fun factor =>
                (dictGet ws factor.id).getD 0 / (ws.map (fun p => p.2)).sum)).sum := by
            refine List.sum_le_sum ?_
            intro f hf
            by_cases hwz : (dictGet ws f.id).getD 0 = 0
            · rw [if_pos hwz, hwz, zero_div]
            · rw [if_neg hwz]
              exact mul_le_of_le_one_left (div_nonneg (hwnn f.id) hWpos.le)
                (factorSubScore_bounds staff_id hospital context f.name).2
          have hdiv : (context.staff_factors.map (fun factor =>
              (dictGet ws factor.id).getD 0 / (ws.map (fun p => p.2)).sum)).sum =
              (context.staff_factors.map (fun factor =>
                (dictGet ws factor.id).getD 0)).sum / (ws.map (fun p => p.2)).sum := by
            simp only [div_eq_mul_inv]
            rw [List.sum_map_mul_right]
          have hkey : (context.staff_factors.map (fun factor =>
              (dictGet ws factor.id).getD 0)).sum ≤ (ws.map (fun p => p.2)).sum := by
            have hs := sum_dictGetD_le (context.staff_factors.map (fun f => f.id)) ws hvals
              (show (context.staff_factors.map (fun f => f.id)).Nodup from hfac)
            rw [List.map_map] at hs
            exact hs
          calc (context.staff_factors.map (fun factor =>
              let weight := (dictGet ws factor.id).getD 0
              if weight = 0 then 0
              else factorSubScore staff_id hospital context factor.name *
                (weight / (ws.map (fun p => p.2)).sum))).sum
              ≤ (context.staff_factors.map (fun factor =>
                (dictGet ws factor.id).getD 0 / (ws.map (fun p => p.2)).sum)).sum := hle
            _ = (context.staff_factors.map (fun factor =>
                (dictGet ws factor.id).getD 0)).sum / (ws.map (fun p => p.2)).sum := hdiv
            _ ≤ 1 := (div_le_one hWpos).mpr hkey

/-- C9: for a candidate with valid genes, when admin-evaluation values lie
in [0,1], staff factor weights are nonnegative, declared choice ranks are
in 1..3 and the staff-factor catalog carries distinct ids,
calculate_fitness lies in [0,1]: each per-resident term is in [0,1], the
weights 0.4 + 0.3 + 0.3 sum to 1, and the penalty only lowers a value that
max(0, ·) then clips from below. -/
theorem C9_fitness_unit_interval (individual : List Nat) (context : FitnessContext)
    (hv : validCandidate context.hospitals.length context.residents.length individual)
    (hranks : allChoiceRanksValid context)
    (hw : allWeightsNonneg context)
    (hadmin : allAdminValuesUnit context)
    (hfac : staffFactorIdsNodup context) :
    0 ≤ calculate_fitness individual context ∧ calculate_fitness individual context ≤ 1 := by
  rw [calculate_fitness]
  by_cases hn : context.residents.length = 0
  · rw [if_pos hn]; norm_num
  · rw [if_neg hn]
    have hnpos : (0:ℚ) < (context.residents.length : ℚ) := by
      exact_mod_cast Nat.pos_of_ne_zero hn
    have hpen : 0 ≤ capacityPenalty individual context := by
      rw [capacityPenalty]
      refine List.sum_nonneg ?_
      intro x hx
      rw [List.mem_map] at hx
      obtain ⟨hid, _, rfl⟩ := hx
      exact capacityPenalty_term_nonneg individual context hid
    have hterm : ∀ x ∈ context.residents.enum.map (fun p =>
        let hospital := hospitalAt context (individual.getD p.1 0)
        calculate_hope_score p.2.id hospital.id context * 0.4
          + calculate_preference_score p.2.id hospital context * 0.3
          + calculate_admin_score p.2.id context * 0.3), 0 ≤ x ∧ x ≤ 1 := by
      intro x hx
      rw [List.mem_map] at hx
      obtain ⟨p, _, rfl⟩ := hx
      have h1 := hope_score_bounds p.2.id
        (hospitalAt context (individual.getD p.1 0)).id context hranks
      have h2 := preference_score_bounds p.2.id
        (hospitalAt context (individual.getD p.1 0)) context hw hfac
      have h3 := admin_score_bounds p.2.id context hadmin
      constructor
      · linarith [h1.1, h2.1, h3.1]
      · linarith [h1.2, h2.2, h3.2]
    have hT0 : 0 ≤ (context.residents.enum.map (fun p =>
        let hospital := hospitalAt context (individual.getD p.1 0)
        calculate_hope_score p.2.id hospital.id context * 0.4
          + calculate_preference_score p.2.id hospital context * 0.3
          + calculate_admin_score p.2.id context * 0.3)).sum :=
      List.sum_nonneg (fun x hx => (hterm x hx).1)
    have hT1 : (context.residents.enum.map (fun p =>
        let hospital := hospitalAt context (individual.getD p.1 0)
        calculate_hope_score p.2.id hospital.id context * 0.4
          + calculate_preference_score p.2.id hospital context * 0.3
          + calculate_admin_score p.2.id context * 0.3)).sum ≤
        (context.residents.length : ℚ) := by
      have hb := List.sum_le_card_nsmul (context.residents.enum.map (fun p =>
        let hospital := hospitalAt context (individual.getD p.1 0)
        calculate_hope_score p.2.id hospital.id context * 0.4
          + calculate_preference_score p.2.id hospital context * 0.3
          + calculate_admin_score p.2.id context * 0.3)) 1 (fun x hx => (hterm x hx).2)
      rw [List.length_map, List.enum_length] at hb
      simpa using hb
    constructor
    · exact le_max_left _ _
    · refine max_le (by norm_num) ?_
      rw [div_le_one hnpos]
      linarith

/-- C9 witness: the fitness bounds at a concrete candidate and context. -/
theorem C9_fitness_unit_interval_witness :
    0 ≤ calculate_fitness [0] ctxC3 ∧ calculate_fitness [0] ctxC3 ≤ 1 :=
  C9_fitness_unit_interval [0] ctxC3 (by decide)
    (by unfold allChoiceRanksValid; decide)
    (by unfold allWeightsNonneg; decide)
    (by unfold allAdminValuesUnit; decide)
    (by unfold staffFactorIdsNodup; decide)

/-- C2 witness: the penalty identity at a concrete candidate and context. -/
theorem C2_capacity_penalty_witness :
    capacityPenalty [0, 0] ctxC3 = 0.5 * totalExcess [0, 0] ctxC3 :=
  (C2_capacity_penalty [0, 0] ctxC3 (by decide) (by decide)).1

/-- C8 witness: the no-op at a concrete within-capacity candidate. -/
theorem C8_capacity_mutation_noop_witness :
    mutate_capacity_aware [0] ctxC3 true 7 = [0] :=
  C8_capacity_mutation_noop [0] ctxC3 (by decide) true 7

/-! ### C5: tournament selection -/

theorem pool_step_perm (pool : List Individual) (j : Nat) (hj : j < pool.length) :
    (pool.getD j default ::
      ((pool.set j (pool.getD (pool.length - 1) default)).take (pool.length - 1))).Perm pool := by
  have hlast : pool.length - 1 < pool.length := by omega
  rw [List.getD_eq_getElem pool default hj, List.getD_eq_getElem pool default hlast]
  rw [List.set_eq_take_append_cons_drop, if_pos hj]
  have hA : (pool.take j).length = j := by rw [List.length_take]; omega
  rw [List.take_append_eq_append_take, hA, List.take_take]
  have hmin : min (pool.length - 1) j = j := by omega
  rw [hmin]
  have hpool : pool = pool.take j ++ pool[j] :: pool.drop (j + 1) := by
    conv_lhs => rw [← List.take_append_drop j pool]
    rw [List.drop_eq_getElem_cons hj]
  by_cases hj1 : j = pool.length - 1
  · have hdrop : pool.drop (j + 1) = [] := List.drop_eq_nil_of_le (by omega)
    have htk : pool.length - 1 - j = 0 := by omega
    rw [htk, List.take_zero, List.append_nil]
    conv_rhs => rw [hpool, hdrop]
    subst hj1
    exact (List.perm_append_singleton _ _).symm
  · have htk : pool.length - 1 - j = (pool.length - 1 - j - 1) + 1 := by omega
    rw [htk, List.take_succ_cons]
    have hB : pool.drop (j + 1) =
        (pool.drop (j + 1)).take (pool.length - 1 - j - 1) ++ [pool[pool.length - 1]] := by
      conv_lhs => rw [← List.take_append_drop (pool.length - 1 - j - 1) (pool.drop (j + 1))]
      congr 1
      rw [List.drop_drop]
      have h1 : j + 1 + (pool.length - 1 - j - 1) = pool.length - 1 := by omega
      rw [h1, List.drop_eq_getElem_cons hlast, List.drop_eq_nil_of_le (by omega)]
    conv_rhs => rw [hpool, hB]
    refine List.Perm.trans List.perm_middle.symm ?_
    refine List.Perm.append_left _ ?_
    exact List.Perm.cons _ (List.perm_append_singleton _ _).symm

theorem samplePool_subperm :
    ∀ (k : Nat) (pool : List Individual) (ds : List Nat),
      (samplePool pool k ds).Subperm pool := by
  intro k
  induction k with
  | zero => intro pool ds; rw [samplePool]; exact List.nil_subperm
  | succ k ih =>
    intro pool ds
    cases ds with
    | nil => rw [samplePool]; exact List.nil_subperm
    | cons d ds =>
      rw [samplePool]
      by_cases hemp : pool.isEmpty = true
      · rw [if_pos hemp]; exact List.nil_subperm
      · rw [if_neg hemp]
        have hne : pool ≠ [] := fun h => hemp (by simp [h])
        have hj : d % pool.length < pool.length :=
          Nat.mod_lt _ (List.length_pos.mpr hne)
        have hstep := pool_step_perm pool (d % pool.length) hj
        have h1 := ih ((pool.set (d % pool.length)
          (pool.getD (pool.length - 1) default)).take (pool.length - 1)) ds
        have h2 := (List.subperm_cons (pool.getD (d % pool.length) default)).mpr h1
        exact h2.trans hstep.subperm

theorem samplePool_length :
    ∀ (k : Nat) (pool : List Individual) (ds : List Nat),
      k ≤ pool.length → k ≤ ds.length → (samplePool pool k ds).length = k := by
  intro k
  induction k with
  | zero => intro pool ds _ _; rw [samplePool, List.length_nil]
  | succ k ih =>
    intro pool ds hk hds
    cases ds with
    | nil => simp at hds
    | cons d ds =>
      rw [samplePool]
      have hne : pool ≠ [] := by
        intro h
        rw [h] at hk
        simp at hk
      rw [if_neg (fun h => hne (List.isEmpty_iff.mp h))]
      rw [List.length_cons]
      congr 1
      apply ih
      · rw [List.length_take, List.length_set]
        omega
      · simpa using hds

theorem foldl_max_mem :
    ∀ (l : List Individual) (acc : Individual),
      l.foldl (fun acc x => if x.fitness > acc.fitness then x else acc) acc = acc ∨
      l.foldl (fun acc x => if x.fitness > acc.fitness then x else acc) acc ∈ l := by
  intro l
  induction l with
  | nil => intro acc; left; rfl
  | cons b t ih =>
    intro acc
    rw [List.foldl_cons]
    rcases ih (if b.fitness > acc.fitness then b else acc) with h | h
    · rw [h]
      by_cases hb : b.fitness > acc.fitness
      · rw [if_pos hb]; right; exact List.mem_cons_self _ _
      · rw [if_neg hb]; left; rfl
    · right; exact List.mem_cons_of_mem _ h

theorem foldl_max_ge :
    ∀ (l : List Individual) (acc : Individual),
      acc.fitness ≤ (l.foldl (fun acc x => if x.fitness > acc.fitness then x else acc) acc).fitness ∧
      ∀ x ∈ l, x.fitness ≤
        (l.foldl (fun acc x => if x.fitness > acc.fitness then x else acc) acc).fitness := by
  intro l
  induction l with
  | nil => intro acc; exact ⟨le_refl _, by intro x hx; simp at hx⟩
  | cons b t ih =>
    intro acc
    rw [List.foldl_cons]
    have hstep : acc.fitness ≤ (if b.fitness > acc.fitness then b else acc).fitness ∧
        b.fitness ≤ (if b.fitness > acc.fitness then b else acc).fitness := by
      by_cases hb : b.fitness > acc.fitness
      · rw [if_pos hb]; exact ⟨le_of_lt hb, le_refl _⟩
      · rw [if_neg hb]; exact ⟨le_refl _, not_lt.mp hb⟩
    have hrec := ih (if b.fitness > acc.fitness then b else acc)
    refine ⟨le_trans hstep.1 hrec.1, ?_⟩
    intro x hx
    rcases List.mem_cons.mp hx with rfl | hx
    · exact le_trans hstep.2 hrec.1
    · exact hrec.2 x hx

theorem foldl_max_strict :
    ∀ (l : List Individual) (acc x : Individual),
      (x = acc ∨ x ∈ l) →
      (∀ y, (y = acc ∨ y ∈ l) → y ≠ x → y.fitness < x.fitness) →
      l.foldl (fun acc x => if x.fitness > acc.fitness then x else acc) acc = x := by
  intro l
  induction l with
  | nil =>
    intro acc x hx _
    rcases hx with rfl | hx
    · rfl
    · simp at hx
  | cons b t ih =>
    intro acc x hx hstrict
    rw [List.foldl_cons]
    have hacc2 : x = (if b.fitness > acc.fitness then b else acc) ∨ x ∈ t := by
      rcases hx with rfl | hx
      · left
        by_cases hbx : b = x
        · subst hbx
          rw [if_neg (lt_irrefl _)]
        · have hlt := hstrict b (Or.inr (List.mem_cons_self _ _)) hbx
          rw [if_neg (not_lt.mpr hlt.le)]
      · rcases List.mem_cons.mp hx with rfl | hx
        · left
          by_cases hacc : acc = x
          · by_cases hb : x.fitness > acc.fitness
            · rw [if_pos hb]
            · rw [if_neg hb, hacc]
          · have := hstrict acc (Or.inl rfl) hacc
            rw [if_pos this]
        · right; exact hx
    apply ih _ x hacc2
    intro y hy hyx
    rcases hy with rfl | hy
    · by_cases hb : b.fitness > acc.fitness
      · rw [if_pos hb] at hyx ⊢
        exact hstrict b (Or.inr (List.mem_cons_self _ _)) hyx
      · rw [if_neg hb] at hyx ⊢
        exact hstrict acc (Or.inl rfl) hyx
    · exact hstrict y (Or.inr (List.mem_cons_of_mem _ hy)) hyx

theorem pyMaxFitness_mem_max (l : List Individual) (hne : l ≠ []) :
    pyMaxFitness l ∈ l ∧ ∀ x ∈ l, x.fitness ≤ (pyMaxFitness l).fitness := by
  cases l with
  | nil => exact absurd rfl hne
  | cons a t =>
    rw [pyMaxFitness]
    constructor
    · rcases foldl_max_mem t a with h | h
      · rw [h]; exact List.mem_cons_self _ _
      · exact List.mem_cons_of_mem _ h
    · intro x hx
      rcases List.mem_cons.mp hx with rfl | hx
      · exact (foldl_max_ge t x).1
      · exact (foldl_max_ge t a).2 x hx

theorem pyMaxFitness_strict (l : List Individual) (x : Individual) (hx : x ∈ l)
    (hstrict : ∀ y ∈ l, y ≠ x → y.fitness < x.fitness) : pyMaxFitness l = x := by
  cases l with
  | nil => simp at hx
  | cons a t =>
    rw [pyMaxFitness]
    apply foldl_max_strict t a x
    · rcases List.mem_cons.mp hx with rfl | hx
      · left; rfl
      · right; exact hx
    · intro y hy hyx
      rcases hy with rfl | hy
      · exact hstrict y (List.mem_cons_self _ _) hyx
      · exact hstrict y (List.mem_cons_of_mem _ hy) hyx

/-- A three-candidate population with pairwise distinct cached fitness
values 1 < 2 < 3. -/
def popC5 : List Individual := [⟨[0], 1⟩, ⟨[1], 2⟩, ⟨[2], 3⟩]

/-- C5 (counterexample): tournament selection does NOT sample with
replacement. Described as sampling with replacement, a tournament of size
3 over this 3-candidate population may select the worst candidate (all
three draws hitting index 0); the implemented select_tournament samples
without replacement, so the aspirants of one tournament are always the
whole population and it returns the best candidate for EVERY draw
sequence — the with-replacement outcome [fitness-1 candidate] is
unreachable. -/
theorem C5_counterexample :
    select_tournament_spec popC5 1 3 (fun _ => [0, 0, 0]) = [⟨[0], 1⟩] ∧
    ∀ draws : Nat → List Nat, (draws 0).length = 3 →
      select_tournament popC5 1 3 draws = [⟨[2], 3⟩] := by
  constructor
  · rfl
  · intro draws hlen
    have hsel : select_tournament popC5 1 3 draws =
        [pyMaxFitness (samplePool popC5 (min 3 popC5.length) (draws 0))] := rfl
    have hmin : min 3 popC5.length = 3 := rfl
    rw [hsel, hmin]
    have hsub := samplePool_subperm 3 popC5 (draws 0)
    have hlen3 : (samplePool popC5 3 (draws 0)).length = 3 :=
      samplePool_length 3 popC5 (draws 0) (by norm_num [popC5]) (by rw [hlen])
    have hperm : (samplePool popC5 3 (draws 0)).Perm popC5 :=
      hsub.perm_of_length_le (by rw [hlen3]; decide)
    have hmem : (⟨[2], 3⟩ : Individual) ∈ samplePool popC5 3 (draws 0) :=
      hperm.mem_iff.mpr (by simp [popC5])
    have hwin := pyMaxFitness_strict _ _ hmem ?strict
    · rw [hwin]
    case strict =>
      intro y hy hyx
      have hy2 : y ∈ popC5 := hperm.subset hy
      simp only [popC5, List.mem_cons, List.not_mem_nil, or_false] at hy2
      rcases hy2 with rfl | rfl | rfl
      · norm_num
      · norm_num
      · exact absurd rfl hyx

/-- C5 (amended): select_tournament fills a selection of size k by
repeating k times: sample min(tournsize, population size) DISTINCT
candidates without replacement (the aspirants are a subpermutation of the
population, duplicate-free whenever the population is), and keep the
aspirant with the highest cached fitness. -/
theorem C5_tournament_without_replacement (population : List Individual)
    (k tournsize : Nat) (draws : Nat → List Nat)
    (hpop : population ≠ []) (hts : 1 ≤ tournsize)
    (hdraws : ∀ t, min tournsize population.length ≤ (draws t).length) :
    (select_tournament population k tournsize draws).length = k ∧
    ∀ t, t < k → ∃ aspirants : List Individual,
      aspirants.Subperm population ∧
      aspirants.length = min tournsize population.length ∧
      (population.Nodup → aspirants.Nodup) ∧
      (select_tournament population k tournsize draws).getD t default =
        pyMaxFitness aspirants ∧
      pyMaxFitness aspirants ∈ aspirants ∧
      ∀ x ∈ aspirants, x.fitness ≤ (pyMaxFitness aspirants).fitness := by
  constructor
  · rw [select_tournament, List.length_map, List.length_range]
  · intro t ht
    have hlen := samplePool_length (min tournsize population.length) population (draws t)
      (min_le_right _ _) (hdraws t)
    have hne : samplePool population (min tournsize population.length) (draws t) ≠ [] := by
      intro h
      rw [h] at hlen
      have h1 : 0 < population.length := List.length_pos.mpr hpop
      simp at hlen
      omega
    refine ⟨samplePool population (min tournsize population.length) (draws t),
      samplePool_subperm _ _ _, hlen, ?_, ?_, (pyMaxFitness_mem_max _ hne).1,
      fun x hx => (pyMaxFitness_mem_max _ hne).2 x hx⟩
    · intro hnd
      obtain ⟨l, hlp, hls⟩ := samplePool_subperm (min tournsize population.length)
        population (draws t)
      exact (hlp.nodup_iff).mp (List.Nodup.sublist hls hnd)
    · rw [select_tournament,
        List.getD_eq_getElem _ _ (by rw [List.length_map, List.length_range]; exact ht)]
      rw [List.getElem_map, List.getElem_range]

/-- C5 witness: the amended tournament statement at the concrete
population. -/
theorem C5_tournament_without_replacement_witness :
    (select_tournament popC5 1 3 (fun _ => [0, 0, 0])).length = 1 :=
  (C5_tournament_without_replacement popC5 1 3 (fun _ => [0, 0, 0]) (by decide) (by decide)
    (by
      intro t
      show min 3 popC5.length ≤ ([0, 0, 0] : List Nat).length
      decide)).1
